import Mathlib

/-!
Verification development for the fenced-code preprocessor
(`markdown/extensions/fenced_code.py`).

The Python source is embedded shallowly over `List Char`:

* `matchCore` / `search` embed `FencedBlockPreprocessor.FENCED_BLOCK_RE`
  (source lines 98-102) together with Python `re.search` semantics:
  the pattern is tried at every position in ascending order (`searchAux`),
  `^` requires a start-of-line position (MULTILINE), greedy pieces
  (`~{3,}` / backtick runs, the two `[ ]*`, the options class) try their
  longest candidate first, the lazy `(?P<code>.*?)` tries its shortest
  candidate first, `(?<=\n)` is the look-behind at the end of the code
  capture, `(?P=fence)` is the back-reference to the opening delimiter
  run, and `$` accepts end-of-text or a following newline (MULTILINE).
* `parseOptions`, `doParseFuel`, `truncateBrackets`, `truncateDot`,
  `findLabel` embed `_parse_options`, `__do_parse`,
  `__truncate_brackets`, `__truncate_dot` and `__LABEL_RE` (lines 27-83).
* `escapeHtml` embeds `FencedBlockPreprocessor._escape` (lines 161-167).
* `fencedRender`, `spliceAt`, `runLoop`, `run` embed the render and
  scan-splice loop of `FencedBlockPreprocessor.run` (lines 124-159); the
  syntax-highlighting collaborator (`CodeHilite`) and the opaque content
  store (`htmlStash`) are external to the repository and are abstracted
  as the function parameters `hl` and `ph`.
-/

set_option maxHeartbeats 2000000
set_option maxRecDepth 4000

namespace FencedCode

/-! ### Characters and character classes -/

/-- The backtick character (codepoint 96). -/
def chBacktick : Char := Char.ofNat 96

/-- The double-quote character (codepoint 34). -/
def chDQuote : Char := Char.ofNat 34

/-- The single-quote character (codepoint 39). -/
def chSQuote : Char := Char.ofNat 39

/-- The left-brace character (codepoint 123). -/
def chLBrace : Char := Char.ofNat 123

/-- The right-brace character (codepoint 125). -/
def chRBrace : Char := Char.ofNat 125

/-- A fence delimiter character: backtick or tilde. -/
def isFenceChar (c : Char) : Bool := c == chBacktick || c == '~'

/-- The character class of the options capture in `FENCED_BLOCK_RE`:
`[a-zA-Z0-9 .{}="'_+-]`. -/
def optClassChar (c : Char) : Bool :=
  c.isAlpha || c.isDigit || c == ' ' || c == '.' || c == chLBrace || c == chRBrace ||
    c == '=' || c == chDQuote || c == chSQuote || c == '_' || c == '+' || c == '-'

/-- The label character class of `__LABEL_RE`: `[a-zA-Z0-9_+-]`. -/
def labelChar (c : Char) : Bool :=
  c.isAlpha || c.isDigit || c == '_' || c == '+' || c == '-'

/-! ### Small combinators used to spell out the regex backtracking order -/

/-- Try `f` on each candidate in order and return the first success:
the backtracking order of a regex quantifier over its candidate lengths. -/
def firstSome {α β : Type} (f : α → Option β) : List α → Option β
  | [] => none
  | a :: as =>
    match f a with
    | some b => some b
    | none => firstSome f as

/-- The list `[hi, hi-1, ..., lo]` (empty when `hi < lo`): candidate order
of a greedy quantifier. -/
def descRange (hi lo : Nat) : List Nat :=
  ((List.range (hi + 1 - lo)).map (fun i => lo + i)).reverse

/-! ### The fence scanner (`FENCED_BLOCK_RE`, source lines 98-102) -/

/-- A successful match of `FENCED_BLOCK_RE`.  `fenceChar`/`fenceLen` give
the `fence` capture (`List.replicate fenceLen fenceChar`), `sp1` the
spaces consumed by the `[ ]*` after the opening run, `opts` the `options`
capture, `code` the `code` capture, `sp2` the trailing spaces of the
closing fence line, and `post` the text that follows the match end. -/
structure Core where
  fenceChar : Char
  fenceLen : Nat
  sp1 : Nat
  opts : List Char
  code : List Char
  sp2 : Nat
  post : List Char
deriving DecidableEq, Repr

/-- `$` in MULTILINE mode, seen from the suffix that starts at the
current position: end of text or a newline next. -/
def atEolSfx : List Char → Bool
  | [] => true
  | c :: _ => c == '\n'

/-- The closing part of the pattern at code-end candidate `e`:
the `(?<=\n)` look-behind, the `(?P=fence)` back-reference, and the final
greedy `[ ]*$`. -/
def matchClose (c : Char) (L sp1n : Nat) (opts body : List Char) (e : Nat) : Option Core :=
  if decide (e = 0) || (body.get? (e - 1) == some '\n') then
    if (List.replicate L c).isPrefixOf (body.drop e) then
      firstSome
        (fun q =>
          if atEolSfx (((body.drop e).drop L).drop q) then
            some ⟨c, L, sp1n, opts, body.take e, q, ((body.drop e).drop L).drop q⟩
          else none)
        (descRange ((((body.drop e).drop L).takeWhile (fun x => x == ' ')).length) 0)
    else none
  else none

/-- The `\n` after the options capture and the lazy `(?P<code>.*?)`:
code-length candidates are tried in ascending order. -/
def matchAfterOpts (c : Char) (L sp1n : Nat) (opts x : List Char) : Option Core :=
  match x with
  | '\n' :: body => firstSome (matchClose c L sp1n opts body) (List.range (body.length + 1))
  | _ => none

/-- The greedy `(?P<options>[...]*)` capture. -/
def matchAfterSp (c : Char) (L sp1n : Nat) (w : List Char) : Option Core :=
  firstSome (fun j => matchAfterOpts c L sp1n (w.take j) (w.drop j))
    (descRange ((w.takeWhile optClassChar).length) 0)

/-- The greedy `[ ]*` after the opening delimiter run. -/
def matchAfterFence (c : Char) (L : Nat) (v : List Char) : Option Core :=
  firstSome (fun i => matchAfterSp c L i (v.drop i))
    (descRange ((v.takeWhile (fun x => x == ' ')).length) 0)

/-- Match the whole pattern at the current position (a start of line):
a greedy run of three-or-more identical fence characters, then the rest
of the pattern. -/
def matchCore : List Char → Option Core
  | [] => none
  | c :: u =>
    if isFenceChar c then
      if 3 ≤ ((c :: u).takeWhile (fun x => x == c)).length then
        firstSome (fun L => matchAfterFence c L ((c :: u).drop L))
          (descRange (((c :: u).takeWhile (fun x => x == c)).length) 3)
      else none
    else none

/-- `re.search`: try the pattern at positions `k = 0, 1, 2, ...`; the `^`
anchor restricts attempts to start-of-line positions, tracked by `b`. -/
def searchAux : Nat → Bool → List Char → Option (Nat × Core)
  | _, _, [] => none
  | k, b, c :: u =>
    match (if b then matchCore (c :: u) else none) with
    | some r => some (k, r)
    | none => searchAux (k + 1) (c == '\n') u

/-- `FENCED_BLOCK_RE.search(text)`: position of the first match and its
captures. -/
def search (t : List Char) : Option (Nat × Core) := searchAux 0 true t

/-- Length of the whole matched span (`m.end() - m.start()`). -/
def coreLen (r : Core) : Nat :=
  r.fenceLen + r.sp1 + r.opts.length + 1 + r.code.length + r.fenceLen + r.sp2

/-- The text of the matched span, reconstructed from the captures:
opening run, spaces, options, newline, body, closing run, trailing
spaces. -/
def blockText (r : Core) : List Char :=
  List.replicate r.fenceLen r.fenceChar ++ List.replicate r.sp1 ' ' ++ r.opts ++
    '\n' :: (r.code ++ List.replicate r.fenceLen r.fenceChar ++ List.replicate r.sp2 ' ')

/-! ### Lines: `"\n".join(lines)` and `text.split("\n")` -/

/-- Prepend a character to the first line of a split result. -/
def consHead (c : Char) : List (List Char) → List (List Char)
  | [] => [[c]]
  | l :: ls => (c :: l) :: ls

/-- Python `text.split("\n")` (always returns at least one piece). -/
def splitNl : List Char → List (List Char)
  | [] => [[]]
  | c :: rest => if c = '\n' then [] :: splitNl rest else consHead c (splitNl rest)

/-- Python `"\n".join(lines)`. -/
def joinNl : List (List Char) → List Char
  | [] => []
  | [l] => l
  | l :: ls => l ++ '\n' :: joinNl ls

/-- The splice of `run` (source lines 154-156):
`'%s\n%s\n%s' % (text[:s], placeholder, text[e:])`. -/
def spliceAt (text ph : List Char) (s e : Nat) : List Char :=
  text.take s ++ '\n' :: (ph ++ '\n' :: text.drop e)

/-! ### Option values and the option grammar parser (source lines 27-83) -/

/-- A parsed option value: a raw string, a parsed boolean, or the marker
for a `ValueError` raised by the boolean parser. -/
inductive OptVal where
  | str (s : String)
  | bool (b : Bool)
  | err
deriving DecidableEq, Repr

/-- Pack a character list into a `String`. -/
def strOfList (l : List Char) : String := String.mk l

/-- ASCII lower-casing of one character (Python `str.lower` on the
alphabet these options use). -/
def charLower (c : Char) : Char :=
  if 'A' ≤ c && c ≤ 'Z' then Char.ofNat (c.toNat + 32) else c

/-- Modelled from the spec: the boolean-string helper `parseBoolValue`
from `markdown/util.py`, which is outside the given sources.  The spec
describes boolean-typed options as tri-state booleans parsed from
strings, with `linenums="True"` parsing to `true`; accordingly the usual
truthy and falsy spellings are mapped to booleans and anything else to
the error marker (the helper raises `ValueError` there). -/
def parseBoolValue (value : List Char) : OptVal :=
  if value.map charLower = ("true").data ∨ value.map charLower = ("yes").data ∨
      value.map charLower = ("y").data ∨ value.map charLower = ("1").data then
    OptVal.bool true
  else if value.map charLower = ("false").data ∨ value.map charLower = ("no").data ∨
      value.map charLower = ("n").data ∨ value.map charLower = ("0").data ∨
      value.map charLower = ("none").data then
    OptVal.bool false
  else OptVal.err

/-- The `lang` key emitted for bare labels. -/
def langKey : String := "lang"

/-- `__OPTION_PARSERS.get(label, __identity)` applied to a raw value:
`linenums`, `guess_lang` and `noclasses` go through the boolean parser,
everything else (including unknown keys) through the identity. -/
def applyParser (label : String) (value : List Char) : OptVal :=
  if label = ("linenums" : String) ∨ label = ("guess_lang" : String) ∨
      label = ("noclasses" : String) then
    parseBoolValue value
  else OptVal.str (strOfList value)

/-- `__truncate_brackets`: strip a single matching outer brace pair. -/
def truncateBrackets (s : List Char) : List Char :=
  if 2 ≤ s.length ∧ s.head? = some chLBrace ∧ s.getLast? = some chRBrace then
    (s.drop 1).dropLast
  else s

/-- `__truncate_dot`: strip one leading dot. -/
def truncateDot (s : List Char) : List Char :=
  match s with
  | c :: rest => if c = '.' then rest else c :: rest
  | [] => []

/-- `__LABEL_RE.search`: skip to the first label character and return the
maximal label run together with the text after it. -/
def findLabel : List Char → Option (List Char × List Char)
  | [] => none
  | c :: cs =>
    if labelChar c then some ((c :: cs).takeWhile labelChar, (c :: cs).dropWhile labelChar)
    else findLabel cs

/-- `__do_parse` (source lines 58-76), with explicit fuel (every
iteration strictly shortens the string, so `length + 1` fuel is enough).
A label followed by `="..."` or `='...'` with a closing quote yields the
typed pair; with no closing quote nothing is yielded and scanning
continues after the opening quote; any other label yields
`('lang', label)` and scanning continues right after the label. -/
def doParseFuel : Nat → List Char → List (String × OptVal)
  | 0, _ => []
  | fuel + 1, s =>
    match findLabel s with
    | none => []
    | some (label, rest0) =>
      let rest := rest0.dropWhile Char.isWhitespace
      match rest with
      | '=' :: q :: rest2 =>
        if q == chDQuote || q == chSQuote then
          if rest2.contains q then
            (strOfList label, applyParser (strOfList label)
                (rest2.takeWhile (fun x => !(x == q)))) ::
              doParseFuel fuel ((rest2.dropWhile (fun x => !(x == q))).drop 1)
          else doParseFuel fuel rest2
        else (langKey, OptVal.str (strOfList label)) :: doParseFuel fuel rest
      | _ => (langKey, OptVal.str (strOfList label)) :: doParseFuel fuel rest

/-- Insert into an association list with Python `dict` semantics: a later
binding overwrites the value of an earlier one in place, new keys are
appended. -/
def dictInsert (k : String) (v : OptVal) : List (String × OptVal) → List (String × OptVal)
  | [] => [(k, v)]
  | (k', v') :: rest => if k' = k then (k', v) :: rest else (k', v') :: dictInsert k v rest

/-- `dict(pairs)` in scan order. -/
def buildDict (ps : List (String × OptVal)) : List (String × OptVal) :=
  ps.foldl (fun d kv => dictInsert kv.1 kv.2 d) []

/-- `dict.get`. -/
def dictGet : List (String × OptVal) → String → Option OptVal
  | [], _ => none
  | (k, v) :: rest, key => if k = key then some v else dictGet rest key

/-- `_parse_options` (source lines 79-83): strip, unbrace, undot, scan,
and assemble the yielded pairs into a dict. -/
def parseOptions (s : List Char) : List (String × OptVal) :=
  buildDict (doParseFuel
    ((truncateDot (truncateBrackets ((s.dropWhile Char.isWhitespace).reverse.dropWhile
        Char.isWhitespace |>.reverse))).length + 1)
    (truncateDot (truncateBrackets ((s.dropWhile Char.isWhitespace).reverse.dropWhile
        Char.isWhitespace |>.reverse))))

/-! ### The HTML escaping of `_escape` (source lines 161-167) -/

/-- Python `str.replace` with a single-character needle. -/
def replaceChar (a : Char) (rep : List Char) : List Char → List Char
  | [] => []
  | c :: cs => if c = a then rep ++ replaceChar a rep cs else c :: replaceChar a rep cs

/-- `_escape`: replace the ampersand first, then the angle brackets, then
the double quote. -/
def escapeHtml (txt : List Char) : List Char :=
  replaceChar chDQuote (("&quot;").data)
    (replaceChar '>' (("&gt;").data)
      (replaceChar '<' (("&lt;").data)
        (replaceChar '&' (("&amp;").data) txt)))

/-- The character-wise escaping map stated by the spec: exactly the four
characters ampersand, less-than, greater-than and double quote become
entities, everything else is unchanged. -/
def escChar (c : Char) : List Char :=
  if c = '&' then ("&amp;").data
  else if c = '<' then ("&lt;").data
  else if c = '>' then ("&gt;").data
  else if c = chDQuote then ("&quot;").data
  else [c]

/-- Character-wise application of `escChar` to a whole string. -/
def escSpec : List Char → List Char
  | [] => []
  | c :: cs => escChar c ++ escSpec cs

/-! ### The block renderer and the substitution driver (lines 124-159) -/

/-- `CODE_WRAP % (langAttr, body)`:
`<pre><code%s>%s</code></pre>`. -/
def codeWrap (langAttr body : List Char) : List Char :=
  ("<pre><code").data ++ langAttr ++ (">").data ++ body ++ ("</code></pre>").data

/-- Python `%s` formatting of an option value. -/
def ovFormat : OptVal → List Char
  | OptVal.str s => s.data
  | OptVal.bool b => if b then ("True").data else ("False").data
  | OptVal.err => ("<error>").data

/-- `LANG_TAG % opts.get('lang', '')`: the attribute text
` class="..."`. -/
def langTagFor (opts : List (String × OptVal)) : List Char :=
  (" class=").data ++ chDQuote :: (ovFormat ((dictGet opts langKey).getD (OptVal.str ""))
    ++ [chDQuote])

/-- One rendered fragment (lines 128-151).  With `conf = true` the
highlighting collaborator `hl` (external `CodeHilite`) is called on the
code capture and parsed options; otherwise the fallback wrapper is
emitted, with the ` class="..."` attribute computed only when the options
capture is non-empty. -/
def fencedRender (conf : Bool) (hl : List Char → List (String × OptVal) → List Char)
    (r : Core) : List Char :=
  if conf then hl r.code (if r.opts.isEmpty then [] else parseOptions r.opts)
  else
    codeWrap (if r.opts.isEmpty then [] else langTagFor (parseOptions r.opts))
      (escapeHtml r.code)

/-- The scan-render-store-splice loop of `run` (lines 125-158), with
explicit fuel so that the embedding is total; `none` means the fuel ran
out before the scan failed to match.  `ph k` is the placeholder the
content store returns for the `k`-th stored fragment, `stored`
accumulates the fragments handed to the store. -/
def runLoop (conf : Bool) (hl : List Char → List (String × OptVal) → List Char)
    (ph : Nat → List Char) :
    Nat → List Char → List (List Char) → Option (List Char × List (List Char))
  | 0, _, _ => none
  | fuel + 1, text, stored =>
    match search text with
    | none => some (text, stored)
    | some (n, r) =>
      runLoop conf hl ph fuel
        (spliceAt text (ph stored.length) n (n + coreLen r))
        (stored ++ [fencedRender conf hl r])

/-- `FencedBlockPreprocessor.run` (lines 124-159): join the lines, loop,
split the result back into lines; also returns the fragments stored. -/
def run (conf : Bool) (hl : List Char → List (String × OptVal) → List Char)
    (ph : Nat → List Char) (fuel : Nat) (lines : List (List Char)) :
    Option (List (List Char) × List (List Char)) :=
  (runLoop conf hl ph fuel (joinNl lines) []).map (fun x => (splitNl x.1, x.2))

/-! ### The termination measure: fence-start lines -/

/-- A line that starts with a run of three-or-more identical fence
characters. -/
def isFenceLine : List Char → Bool
  | [] => false
  | c :: rest =>
    isFenceChar c && decide (3 ≤ ((c :: rest).takeWhile (fun x => x == c)).length)

/-- Number of fence-start lines of a text. -/
def muF (t : List Char) : Nat := (splitNl t).countP isFenceLine

/-! ### Concrete collaborators and documents used by the claims -/

/-- A trivial highlighting collaborator (never used on the fallback
path). -/
def hl0 : List Char → List (String × OptVal) → List Char := fun _ _ => []

/-- A concrete placeholder function: every store returns `PH`. -/
def phPH : Nat → List Char := fun _ => ("PH").data

/-- The placeholder text `PH`. -/
def ph2 : List Char := ("PH").data

/-- Document `\x60\x60\x60 \n x \n \x60\x60\x60` used by several claims. -/
def c1text : List Char := ("```\nx\n```").data

/-- The match of `c1text`. -/
def c1core : Core := ⟨chBacktick, 3, 0, [], ("x\n").data, 0, []⟩

/-- A four-backtick opening with only a three-backtick line after it. -/
def c2docA : List Char := ("````\nx\n```").data

/-- A four-backtick block whose body contains a three-backtick line. -/
def c2docB : List Char := ("````\n```\nx\n````").data

/-- An options segment with no `lang` label. -/
def c4doc : List Char := ("``` hl_lines=\"1 3\"\nx\n```").data

/-- The match of `c4doc`. -/
def c4core : Core := ⟨chBacktick, 3, 1, ("hl_lines=\"1 3\"").data, ("x\n").data, 0, []⟩

/-- The fallback rendering of `c4doc`: an empty class attribute. -/
def c4out : List Char := ("<pre><code class=\"\">x\n</code></pre>").data

/-- Lines whose opening fence line contains a comma, outside the options
character class. -/
def c9doc : List (List Char) := [("```foo,bar").data, ("x").data, ("```").data]

/-- The text after the opening delimiter run of `c9doc`. -/
def c9rest : List Char := ("foo,bar\nx\n```").data

/-- The join of `c9doc`. -/
def c9u : List Char := ("```foo,bar\nx\n```").data

/-- An empty fenced block: opening fence immediately followed by its
closing fence. -/
def c10doc : List Char := ("```\n```").data

/-- The match of `c10doc`: empty options, empty code. -/
def c10core : Core := ⟨chBacktick, 3, 0, [], [], 0, []⟩

/-- The fallback rendering of an empty block. -/
def c10wrap : List Char := ("<pre><code></code></pre>").data

/-- Lines used by the termination and no-match claims. -/
def c7lines : List (List Char) := [("hello").data, ("world").data]

/-- Lines holding one fenced block, for the termination witness. -/
def c8lines : List (List Char) := [("```").data, ("x").data, ("```").data]

/-- The \x60 class="..."\x60 attribute carrying a given language string. -/
def langAttrOf (s : String) : List Char :=
  (" class=").data ++ chDQuote :: (s.data ++ [chDQuote])

/-! ### Generic inversion and list lemmas -/

theorem firstSome_some {α β : Type} {f : α → Option β} {b : β} :
    ∀ {l : List α}, firstSome f l = some b → ∃ a, a ∈ l ∧ f a = some b := by
  intro l
  induction l with
  | nil => intro h; simp [firstSome] at h
  | cons a as ih =>
    intro h
    cases hfa : f a with
    | some b' =>
      simp only [firstSome, hfa] at h
      exact ⟨a, List.mem_cons_self a as, by rw [hfa, h]⟩
    | none =>
      simp only [firstSome, hfa] at h
      obtain ⟨x, hx, hfx⟩ := ih h
      exact ⟨x, List.mem_cons_of_mem a hx, hfx⟩

theorem mem_descRange {x hi lo : Nat} (h : x ∈ descRange hi lo) : lo ≤ x ∧ x ≤ hi := by
  simp only [descRange, List.mem_reverse, List.mem_map, List.mem_range] at h
  obtain ⟨i, hilt, rfl⟩ := h
  omega

theorem takeWhile_cons_eq {α : Type} {p : α → Bool} {a : α} {l : List α} :
    (a :: l).takeWhile p = if p a then a :: l.takeWhile p else [] := by
  cases h : p a <;> simp [List.takeWhile, h]

theorem take_eq_replicate_of_le_takeWhile {c : Char} :
    ∀ (l : List Char) (k : Nat), k ≤ (l.takeWhile (fun x => x == c)).length →
      l.take k = List.replicate k c := by
  intro l
  induction l with
  | nil =>
    intro k hk
    simp only [List.takeWhile_nil, List.length_nil, Nat.le_zero] at hk
    subst hk
    simp
  | cons a l ih =>
    intro k hk
    cases hac : (a == c) with
    | true =>
      have ha : a = c := by simpa using hac
      cases k with
      | zero => simp
      | succ k' =>
        simp only [takeWhile_cons_eq, hac, if_true, List.length_cons] at hk
        simp only [List.take_succ_cons, List.replicate_succ, ha]
        have := ih k' (by omega)
        rw [this]
    | false =>
      simp only [takeWhile_cons_eq, hac] at hk
      simp only [Bool.false_eq_true, if_false, List.length_nil, Nat.le_zero] at hk
      subst hk
      simp

theorem mem_take_of_le_takeWhile {α : Type} {p : α → Bool} :
    ∀ (l : List α) (k : Nat), k ≤ (l.takeWhile p).length → ∀ x ∈ l.take k, p x = true := by
  intro l
  induction l with
  | nil => intro k hk x hx; simp at hx
  | cons a l ih =>
    intro k hk x hx
    cases hpa : p a with
    | true =>
      cases k with
      | zero => simp at hx
      | succ k' =>
        simp only [takeWhile_cons_eq, hpa, if_true, List.length_cons] at hk
        simp only [List.take_succ_cons, List.mem_cons] at hx
        rcases hx with rfl | hx
        · exact hpa
        · exact ih k' (by omega) x hx
    | false =>
      simp only [takeWhile_cons_eq, hpa] at hk
      simp only [Bool.false_eq_true, if_false, List.length_nil, Nat.le_zero] at hk
      subst hk
      simp at hx

theorem takeWhile_length_replicate_append {c : Char} {rest : List Char}
    (h : rest.head? ≠ some c) :
    ∀ k, ((List.replicate k c ++ rest).takeWhile (fun x => x == c)).length = k := by
  intro k
  induction k with
  | zero =>
    simp only [List.replicate, List.nil_append]
    cases rest with
    | nil => simp
    | cons r rs =>
      have hr : (r == c) = false := by
        simp only [List.head?_cons] at h
        simpa using fun hrc => h (by rw [hrc])
      simp [takeWhile_cons_eq, hr]
  | succ k ih =>
    simp only [List.replicate_succ, List.cons_append, takeWhile_cons_eq, beq_self_eq_true,
      if_true, List.length_cons]
    omega

theorem le_takeWhile_length_replicate_append {c : Char} (tail : List Char) :
    ∀ k, k ≤ ((List.replicate k c ++ tail).takeWhile (fun x => x == c)).length := by
  intro k
  induction k with
  | zero => simp
  | succ k ih =>
    simp only [List.replicate_succ, List.cons_append, takeWhile_cons_eq, beq_self_eq_true,
      if_true, List.length_cons]
    omega

theorem isPrefixOf_eq_append : ∀ (p l : List Char), p.isPrefixOf l = true →
    l = p ++ l.drop p.length := by
  intro p
  induction p with
  | nil => intro l h; simp
  | cons a p ih =>
    intro l h
    cases l with
    | nil => simp [List.isPrefixOf] at h
    | cons b l' =>
      simp only [List.isPrefixOf, Bool.and_eq_true, beq_iff_eq] at h
      obtain ⟨rfl, h2⟩ := h
      simp only [List.length_cons, List.drop_succ_cons, List.cons_append, List.cons.injEq,
        true_and]
      exact ih l' h2

theorem head?_replicate_append {c : Char} {rest : List Char} {k : Nat} (h : 0 < k) :
    (List.replicate k c ++ rest).head? = some c := by
  cases k with
  | zero => omega
  | succ k => simp [List.replicate_succ]

theorem drop_replicate_append {c : Char} {k : Nat} {rest : List Char} :
    (List.replicate k c ++ rest).drop k = rest := by
  have := List.drop_left (List.replicate k c) rest
  rwa [List.length_replicate] at this

theorem isFenceChar_cases {c : Char} (h : isFenceChar c = true) : c = chBacktick ∨ c = '~' := by
  simp only [isFenceChar, Bool.or_eq_true, beq_iff_eq] at h
  exact h

theorem optClassChar_ne_fence {x c : Char} (hx : optClassChar x = true)
    (hc : isFenceChar c = true) : x ≠ c := by
  rintro rfl
  rcases isFenceChar_cases hc with rfl | rfl
  · exact absurd hx (by decide)
  · exact absurd hx (by decide)

theorem space_ne_fence {c : Char} (hc : isFenceChar c = true) : (' ' : Char) ≠ c := by
  rcases isFenceChar_cases hc with rfl | rfl <;> decide

theorem nl_ne_fence {c : Char} (hc : isFenceChar c = true) : ('\n' : Char) ≠ c := by
  rcases isFenceChar_cases hc with rfl | rfl <;> decide

theorem optClassChar_ne_nl {x : Char} (hx : optClassChar x = true) : x ≠ '\n' := by
  rintro rfl
  exact absurd hx (by decide)

/-! ### Inversion of the fence scanner -/

theorem matchClose_some {c : Char} {L sp1n : Nat} {opts body : List Char} {e : Nat} {r : Core}
    (h : matchClose c L sp1n opts body e = some r) :
    (e = 0 ∨ body.get? (e - 1) = some '\n') ∧
    r.fenceChar = c ∧ r.fenceLen = L ∧ r.sp1 = sp1n ∧ r.opts = opts ∧
    r.code = body.take e ∧
    body.drop e = List.replicate L c ++ (List.replicate r.sp2 ' ' ++ r.post) ∧
    atEolSfx r.post = true := by
  unfold matchClose at h
  split at h
  next hlb =>
    split at h
    next hpref =>
      obtain ⟨q, hq, hq2⟩ := firstSome_some h
      split at hq2
      next heol =>
        have hr : r = ⟨c, L, sp1n, opts, body.take e, q, ((body.drop e).drop L).drop q⟩ :=
          (Option.some.inj hq2).symm
        subst hr
        refine ⟨?_, rfl, rfl, rfl, rfl, rfl, ?_, heol⟩
        · simpa only [Bool.or_eq_true, decide_eq_true_eq, beq_iff_eq] using hlb
        · have h1 := isPrefixOf_eq_append _ _ hpref
          rw [List.length_replicate] at h1
          have hqle := (mem_descRange hq).2
          have h2 := take_eq_replicate_of_le_takeWhile ((body.drop e).drop L) q hqle
          calc body.drop e = List.replicate L c ++ (body.drop e).drop L := h1
            _ = List.replicate L c ++ (((body.drop e).drop L).take q
                  ++ ((body.drop e).drop L).drop q) := by rw [List.take_append_drop]
            _ = List.replicate L c ++ (List.replicate q ' '
                  ++ ((body.drop e).drop L).drop q) := by rw [h2]
      next => exact Option.noConfusion hq2
    next => exact Option.noConfusion h
  next => exact Option.noConfusion h

theorem matchAfterOpts_some {c : Char} {L sp1n : Nat} {opts x : List Char} {r : Core}
    (h : matchAfterOpts c L sp1n opts x = some r) :
    ∃ body e, x = '\n' :: body ∧ e ≤ body.length ∧ matchClose c L sp1n opts body e = some r := by
  unfold matchAfterOpts at h
  split at h
  next body =>
    obtain ⟨e, he, he2⟩ := firstSome_some h
    exact ⟨body, e, rfl, Nat.lt_succ_iff.mp (List.mem_range.mp he), he2⟩
  next => exact Option.noConfusion h

theorem matchAfterSp_some {c : Char} {L sp1n : Nat} {w : List Char} {r : Core}
    (h : matchAfterSp c L sp1n w = some r) :
    ∃ j, j ≤ (w.takeWhile optClassChar).length ∧
      matchAfterOpts c L sp1n (w.take j) (w.drop j) = some r := by
  obtain ⟨j, hj, hj2⟩ := firstSome_some h
  exact ⟨j, (mem_descRange hj).2, hj2⟩

theorem matchAfterFence_some {c : Char} {L : Nat} {v : List Char} {r : Core}
    (h : matchAfterFence c L v = some r) :
    ∃ i, i ≤ (v.takeWhile (fun x => x == ' ')).length ∧
      matchAfterSp c L i (v.drop i) = some r := by
  obtain ⟨i, hi, hi2⟩ := firstSome_some h
  exact ⟨i, (mem_descRange hi).2, hi2⟩

theorem matchCore_some_ex {u : List Char} {r : Core} (h : matchCore u = some r) :
    ∃ c u' L, u = c :: u' ∧ isFenceChar c = true ∧ 3 ≤ L ∧
      L ≤ (u.takeWhile (fun x => x == c)).length ∧
      matchAfterFence c L (u.drop L) = some r := by
  cases u with
  | nil => exact Option.noConfusion h
  | cons c u' =>
    simp only [matchCore] at h
    split at h
    next hfc =>
      split at h
      next h3 =>
        obtain ⟨L, hL, hL2⟩ := firstSome_some h
        have hm := mem_descRange hL
        exact ⟨c, u', L, rfl, hfc, hm.1, hm.2, hL2⟩
      next => exact Option.noConfusion h
    next => exact Option.noConfusion h

theorem matchCore_decomp {u : List Char} {r : Core} (h : matchCore u = some r) :
    isFenceChar r.fenceChar = true ∧ 3 ≤ r.fenceLen ∧
    (∀ x ∈ r.opts, optClassChar x = true) ∧
    (r.code = [] ∨ ∃ cpre, r.code = cpre ++ ['\n']) ∧
    atEolSfx r.post = true ∧
    u = blockText r ++ r.post := by
  obtain ⟨c, u', L, rfl, hfc, hL3, hLle, h1⟩ := matchCore_some_ex h
  obtain ⟨i, hile, h2⟩ := matchAfterFence_some h1
  obtain ⟨j, hjle, h3⟩ := matchAfterSp_some h2
  obtain ⟨body, e, hx, hele, h4⟩ := matchAfterOpts_some h3
  obtain ⟨hlb, hrfc, hrfl, hrsp1, hropts, hrcode, hdropeq, heol⟩ := matchClose_some h4
  have hTake : (c :: u').take L = List.replicate L c :=
    take_eq_replicate_of_le_takeWhile _ L hLle
  have hSp : ((c :: u').drop L).take i = List.replicate i ' ' :=
    take_eq_replicate_of_le_takeWhile _ i hile
  have hOptsCls : ∀ x ∈ (((c :: u').drop L).drop i).take j, optClassChar x = true :=
    mem_take_of_le_takeWhile _ j hjle
  have hcodeShape : r.code = [] ∨ ∃ cpre, r.code = cpre ++ ['\n'] := by
    by_cases he0 : e = 0
    · left; rw [hrcode, he0]; simp
    · right
      rcases hlb with he0' | hgl
      · exact absurd he0' he0
      · refine ⟨body.take (e - 1), ?_⟩
        rw [hrcode]
        have hsucc : e = (e - 1) + 1 := by omega
        rw [hsucc, List.take_succ]
        have h5 : e - 1 + 1 - 1 = e - 1 := by omega
        rw [h5]
        have hgl' : body[e - 1]? = some '\n' := by
          rw [← List.get?_eq_getElem?]
          exact hgl
        rw [hgl']
        rfl
  refine ⟨?_, ?_, ?_, hcodeShape, heol, ?_⟩
  · rw [hrfc]; exact hfc
  · rw [hrfl]; exact hL3
  · rw [hropts]; exact hOptsCls
  · have e1 : (c :: u') = List.replicate L c ++ (c :: u').drop L := by
      conv_lhs => rw [← List.take_append_drop L (c :: u'), hTake]
    have e2 : (c :: u').drop L = List.replicate i ' ' ++ ((c :: u').drop L).drop i := by
      conv_lhs => rw [← List.take_append_drop i ((c :: u').drop L), hSp]
    have e3 : ((c :: u').drop L).drop i
        = (((c :: u').drop L).drop i).take j ++ ('\n' :: body) := by
      conv_lhs => rw [← List.take_append_drop j (((c :: u').drop L).drop i), hx]
    have e4 : body = r.code ++ (List.replicate L c ++ (List.replicate r.sp2 ' ' ++ r.post)) := by
      conv_lhs => rw [← List.take_append_drop e body, ← hrcode, hdropeq]
    calc (c :: u')
        = List.replicate L c ++ (c :: u').drop L := e1
      _ = List.replicate L c ++ (List.replicate i ' ' ++ ((c :: u').drop L).drop i) :=
          congrArg (fun z => List.replicate L c ++ z) e2
      _ = List.replicate L c ++ (List.replicate i ' '
            ++ ((((c :: u').drop L).drop i).take j ++ ('\n' :: body))) :=
          congrArg (fun z => List.replicate L c ++ (List.replicate i ' ' ++ z)) e3
      _ = List.replicate L c ++ (List.replicate i ' '
            ++ ((((c :: u').drop L).drop i).take j ++ ('\n' :: (r.code
              ++ (List.replicate L c ++ (List.replicate r.sp2 ' ' ++ r.post)))))) :=
          congrArg (fun z => List.replicate L c ++ (List.replicate i ' '
            ++ ((((c :: u').drop L).drop i).take j ++ ('\n' :: z)))) e4
      _ = blockText r ++ r.post := by
          rw [blockText, hrfc, hrfl, hrsp1, hropts]
          simp [List.append_assoc, List.cons_append]

theorem matchCore_fenceLen_run {u : List Char} {r : Core} (h : matchCore u = some r) :
    (u.takeWhile (fun x => x == r.fenceChar)).length = r.fenceLen := by
  obtain ⟨hfc, hL3, hopts, hcode, heol, hdec⟩ := matchCore_decomp h
  rw [hdec]
  have hshape : blockText r ++ r.post = List.replicate r.fenceLen r.fenceChar ++
      (List.replicate r.sp1 ' ' ++ (r.opts ++ ('\n' :: ((r.code
        ++ (List.replicate r.fenceLen r.fenceChar ++ List.replicate r.sp2 ' ')) ++ r.post)))) := by
    simp [blockText, List.append_assoc, List.cons_append]
  rw [hshape]
  apply takeWhile_length_replicate_append
  cases hsp1 : r.sp1 with
  | zero =>
    cases hop : r.opts with
    | nil =>
      simp only [List.replicate, List.nil_append, List.head?_cons, ne_eq, Option.some.injEq]
      exact fun hc => (nl_ne_fence hfc) hc
    | cons o os =>
      simp only [List.replicate, List.nil_append, List.cons_append, List.head?_cons, ne_eq,
        Option.some.injEq]
      exact fun hc =>
        (optClassChar_ne_fence (hopts o (by rw [hop]; exact List.mem_cons_self o os)) hfc) hc
  | succ k =>
    simp only [List.replicate_succ, List.cons_append, List.head?_cons, ne_eq, Option.some.injEq]
    exact fun hc => (space_ne_fence hfc) hc

theorem searchAux_some : ∀ (u : List Char) (k : Nat) (b : Bool) (n : Nat) (r : Core),
    searchAux k b u = some (n, r) →
    ∃ d, n = k + d ∧ matchCore (u.drop d) = some r ∧
      (d = 0 → b = true) ∧ (0 < d → u.get? (d - 1) = some '\n') := by
  intro u
  induction u with
  | nil => intro k b n r h; exact Option.noConfusion h
  | cons c u' ih =>
    intro k b n r h
    simp only [searchAux] at h
    cases b with
    | false =>
      simp only [Bool.false_eq_true, if_false] at h
      obtain ⟨d, hd, hm, hd0, hdpos⟩ := ih (k + 1) (c == '\n') n r h
      refine ⟨d + 1, by omega, ?_, fun h0 => absurd h0 (Nat.succ_ne_zero d), ?_⟩
      · simpa only [List.drop_succ_cons] using hm
      · intro _
        cases d with
        | zero =>
          have hc : c = '\n' := by simpa using hd0 rfl
          simp [hc]
        | succ d' =>
          have hthis := hdpos (by omega)
          simpa using hthis
    | true =>
      simp only [if_true] at h
      cases hmc : matchCore (c :: u') with
      | some r' =>
        rw [hmc] at h
        simp only [Option.some.injEq, Prod.mk.injEq] at h
        obtain ⟨rfl, rfl⟩ := h
        exact ⟨0, by omega, by simpa using hmc, fun _ => rfl, fun h0 => absurd h0 (by omega)⟩
      | none =>
        rw [hmc] at h
        obtain ⟨d, hd, hm, hd0, hdpos⟩ := ih (k + 1) (c == '\n') n r h
        refine ⟨d + 1, by omega, ?_, fun h0 => absurd h0 (Nat.succ_ne_zero d), ?_⟩
        · simpa only [List.drop_succ_cons] using hm
        · intro _
          cases d with
          | zero =>
            have hc : c = '\n' := by simpa using hd0 rfl
            simp [hc]
          | succ d' =>
            have hthis := hdpos (by omega)
            simpa using hthis

theorem search_some {t : List Char} {n : Nat} {r : Core} (h : search t = some (n, r)) :
    matchCore (t.drop n) = some r ∧ (n = 0 ∨ (0 < n ∧ t.get? (n - 1) = some '\n')) := by
  obtain ⟨d, hd, hm, hd0, hdpos⟩ := searchAux_some t 0 true n r h
  have hnd : n = d := by omega
  subst hnd
  refine ⟨hm, ?_⟩
  cases n with
  | zero => exact Or.inl rfl
  | succ n' => exact Or.inr ⟨by omega, hdpos (by omega)⟩

/-! ### Lines, splitting, joining and the fence-line count -/

theorem splitNl_ne_nil : ∀ l : List Char, splitNl l ≠ [] := by
  intro l
  induction l with
  | nil => simp [splitNl]
  | cons c rest ih =>
    by_cases hc : c = '\n'
    · simp [splitNl, hc]
    · simp only [splitNl, hc, if_false]
      cases hsp : splitNl rest with
      | nil => exact absurd hsp ih
      | cons a as => simp [consHead]

theorem consHead_append {c : Char} {x : List (List Char)} (hx : x ≠ []) (y : List (List Char)) :
    consHead c (x ++ y) = consHead c x ++ y := by
  cases x with
  | nil => exact absurd rfl hx
  | cons a as => simp [consHead]

theorem splitNl_append_nl : ∀ (x y : List Char), splitNl (x ++ '\n' :: y) = splitNl x ++ splitNl y := by
  intro x y
  induction x with
  | nil => simp [splitNl]
  | cons c x' ih =>
    by_cases hc : c = '\n'
    · simp [splitNl, hc, ih]
    · simp only [List.cons_append, splitNl, hc, if_false, List.append_eq, ih]
      exact consHead_append (splitNl_ne_nil x') (splitNl y)

theorem splitNl_no_nl : ∀ {l : List Char}, '\n' ∉ l → splitNl l = [l] := by
  intro l
  induction l with
  | nil => intro _; rfl
  | cons c rest ih =>
    intro h
    have hc : c ≠ '\n' := fun hc => h (by rw [hc]; exact List.mem_cons_self _ _)
    have hrest : '\n' ∉ rest := fun hr => h (List.mem_cons_of_mem c hr)
    simp [splitNl, hc, ih hrest, consHead]

theorem muF_append_nl (x y : List Char) : muF (x ++ '\n' :: y) = muF x + muF y := by
  simp [muF, splitNl_append_nl, List.countP_append]

theorem muF_nil : muF [] = 0 := by decide

theorem muF_cons_nl (y : List Char) : muF ('\n' :: y) = muF y := by
  have h := muF_append_nl [] y
  simpa [muF_nil] using h

theorem muF_no_fence {p : List Char} (hp : ∀ l ∈ splitNl p, isFenceLine l = false) :
    muF p = 0 := by
  rw [muF, List.countP_eq_zero]
  intro a ha
  simp [hp a ha]

theorem muF_no_nl_fence {l : List Char} (h1 : '\n' ∉ l) (h2 : isFenceLine l = true) :
    muF l = 1 := by
  rw [muF, splitNl_no_nl h1]
  simp [List.countP_cons, h2]

theorem isFenceLine_replicate_append {c : Char} {L : Nat} (tail : List Char)
    (hc : isFenceChar c = true) (hL : 3 ≤ L) :
    isFenceLine (List.replicate L c ++ tail) = true := by
  cases L with
  | zero => omega
  | succ L' =>
    have hge := le_takeWhile_length_replicate_append (c := c) tail (L' + 1)
    simp only [List.replicate_succ, List.cons_append, isFenceLine, hc, Bool.true_and,
      decide_eq_true_eq]
    have : List.replicate (L' + 1) c ++ tail = c :: (List.replicate L' c ++ tail) := by
      simp [List.replicate_succ]
    rw [this] at hge
    omega

theorem splitNl_joinNl : ∀ {lines : List (List Char)}, lines ≠ [] →
    (∀ l ∈ lines, '\n' ∉ l) → splitNl (joinNl lines) = lines := by
  intro lines
  induction lines with
  | nil => intro h; exact absurd rfl h
  | cons l ls ih =>
    intro _ h1
    cases ls with
    | nil => simp [joinNl, splitNl_no_nl (h1 l (List.mem_cons_self _ _))]
    | cons l2 ls2 =>
      have hj : joinNl (l :: l2 :: ls2) = l ++ '\n' :: joinNl (l2 :: ls2) := rfl
      rw [hj, splitNl_append_nl, splitNl_no_nl (h1 l (List.mem_cons_self _ _))]
      rw [ih (by simp) (fun x hx => h1 x (List.mem_cons_of_mem l hx))]
      rfl

/-! ### The matched span inside the whole text -/

theorem blockText_length (r : Core) : (blockText r).length = coreLen r := by
  simp only [blockText, coreLen, List.length_append, List.length_replicate, List.length_cons]
  omega

theorem search_decomp {t : List Char} {n : Nat} {r : Core} (h : search t = some (n, r)) :
    t.drop n = blockText r ++ r.post ∧
    t.drop (n + coreLen r) = r.post ∧
    t = t.take n ++ (blockText r ++ r.post) ∧
    (t.take n).length = n ∧
    (n = 0 ∨ (0 < n ∧ t.get? (n - 1) = some '\n')) := by
  obtain ⟨hm, hbol⟩ := search_some h
  obtain ⟨hfc, hL3, hoptc, hcshape, heol, hdec⟩ := matchCore_decomp hm
  have hdrop2 : t.drop (n + coreLen r) = r.post := by
    have h1 : t.drop (n + coreLen r) = (t.drop n).drop (coreLen r) := by
      rw [List.drop_drop, Nat.add_comm]
    rw [h1, hdec, ← blockText_length r, List.drop_left]
  have hne : t.drop n ≠ [] := by
    rw [hdec]
    intro hc
    have hlen0 := congrArg List.length hc
    rw [List.length_append, blockText_length, List.length_nil] at hlen0
    simp only [coreLen] at hlen0
    omega
  have hlen : n ≤ t.length := by
    by_contra hlt
    push_neg at hlt
    exact hne (List.drop_eq_nil_of_le (by omega))
  refine ⟨hdec, hdrop2, ?_, ?_, hbol⟩
  · conv_lhs => rw [← List.take_append_drop n t, hdec]
  · rw [List.length_take]
    omega

theorem muF_splice_lt {t : List Char} {n : Nat} {r : Core} {p : List Char}
    (hs : search t = some (n, r)) (hp : ∀ l ∈ splitNl p, isFenceLine l = false) :
    muF (spliceAt t p n (n + coreLen r)) < muF t := by
  obtain ⟨hm, _⟩ := search_some hs
  obtain ⟨hfc, hL3, hoptc, hcshape, heol, _⟩ := matchCore_decomp hm
  obtain ⟨hdropn, hdrop2, hteq, htklen, hbol⟩ := search_decomp hs
  have hmuP : muF p = 0 := muF_no_fence hp
  have hOblock : blockText r ++ r.post
      = (List.replicate r.fenceLen r.fenceChar ++ (List.replicate r.sp1 ' ' ++ r.opts))
        ++ '\n' :: ((r.code ++ (List.replicate r.fenceLen r.fenceChar
          ++ List.replicate r.sp2 ' ')) ++ r.post) := by
    simp [blockText, List.append_assoc, List.cons_append]
  have hOnl : '\n' ∉ List.replicate r.fenceLen r.fenceChar
      ++ (List.replicate r.sp1 ' ' ++ r.opts) := by
    intro hmem
    rcases List.mem_append.mp hmem with hmem1 | hmem2
    · exact nl_ne_fence hfc (List.eq_of_mem_replicate hmem1)
    · rcases List.mem_append.mp hmem2 with hmem3 | hmem4
      · exact absurd (List.eq_of_mem_replicate hmem3) (by decide)
      · exact absurd (hoptc _ hmem4) (by decide)
  have hOfence : isFenceLine (List.replicate r.fenceLen r.fenceChar
      ++ (List.replicate r.sp1 ' ' ++ r.opts)) = true :=
    isFenceLine_replicate_append _ hfc hL3
  have hmuO : muF (List.replicate r.fenceLen r.fenceChar
      ++ (List.replicate r.sp1 ' ' ++ r.opts)) = 1 := muF_no_nl_fence hOnl hOfence
  have hpostc : r.post = [] ∨ ∃ p2, r.post = '\n' :: p2 := by
    cases hpo : r.post with
    | nil => exact Or.inl rfl
    | cons a p2 =>
      right
      have ha : a = '\n' := by
        rw [hpo] at heol
        simpa [atEolSfx] using heol
      exact ⟨p2, by rw [ha]⟩
  have hkey : muF (p ++ '\n' :: r.post) < muF (blockText r ++ r.post) := by
    rw [muF_append_nl, hmuP, Nat.zero_add, hOblock, muF_append_nl, hmuO]
    rcases hpostc with hpo | ⟨p2, hpo⟩
    · rw [hpo, muF_nil]
      omega
    · rw [hpo, muF_cons_nl, muF_append_nl]
      omega
  rcases hbol with rfl | ⟨hnpos, hnl⟩
  · have hdrop2' : t.drop (coreLen r) = r.post := by simpa using hdrop2
    have hS : spliceAt t p 0 (0 + coreLen r) = '\n' :: (p ++ '\n' :: r.post) := by
      simp [spliceAt, hdrop2']
    have ht0 : t = blockText r ++ r.post := by simpa using hdropn
    rw [hS, muF_cons_nl, ht0]
    exact hkey
  · obtain ⟨m, rfl⟩ : ∃ m, n = m + 1 := ⟨n - 1, by omega⟩
    have hnl' : t[m]? = some '\n' := by
      rw [← List.get?_eq_getElem?]
      simpa using hnl
    have htake : t.take (m + 1) = t.take m ++ ['\n'] := by
      rw [List.take_succ, hnl']
      rfl
    have hS : spliceAt t p (m + 1) (m + 1 + coreLen r)
        = t.take m ++ '\n' :: ('\n' :: (p ++ '\n' :: r.post)) := by
      simp only [spliceAt, hdrop2, htake]
      simp [List.append_assoc]
    have ht2 : t = t.take m ++ '\n' :: (blockText r ++ r.post) := by
      conv_lhs => rw [hteq, htake]
      simp [List.append_assoc]
    calc muF (spliceAt t p (m + 1) (m + 1 + coreLen r))
        = muF (t.take m) + muF ('\n' :: (p ++ '\n' :: r.post)) := by rw [hS, muF_append_nl]
      _ = muF (t.take m) + muF (p ++ '\n' :: r.post) := by rw [muF_cons_nl]
      _ < muF (t.take m) + muF (blockText r ++ r.post) := Nat.add_lt_add_left hkey _
      _ = muF t := by rw [← muF_append_nl, ← ht2]

theorem runLoop_isSome (conf : Bool) (hl : List Char → List (String × OptVal) → List Char)
    (ph : Nat → List Char)
    (hph : ∀ k, ∀ l ∈ splitNl (ph k), isFenceLine l = false) :
    ∀ N t stored, muF t < N → (runLoop conf hl ph N t stored).isSome = true := by
  intro N
  induction N with
  | zero => intro t stored h; omega
  | succ N ih =>
    intro t stored h
    cases hsr : search t with
    | none => simp [runLoop, hsr]
    | some nr =>
      obtain ⟨n, r⟩ := nr
      simp only [runLoop, hsr]
      apply ih
      have hlt := muF_splice_lt hsr (hph stored.length)
      omega

/-! ### The escaping map -/

theorem replaceChar_append (a : Char) (rep : List Char) :
    ∀ x y, replaceChar a rep (x ++ y) = replaceChar a rep x ++ replaceChar a rep y := by
  intro x y
  induction x with
  | nil => simp [replaceChar]
  | cons c cs ih =>
    by_cases hc : c = a
    · simp [replaceChar, hc, ih, List.append_assoc]
    · simp [replaceChar, hc, ih]

theorem replaceChar_cons (a : Char) (rep : List Char) (c : Char) (cs : List Char) :
    replaceChar a rep (c :: cs) = (if c = a then rep else [c]) ++ replaceChar a rep cs := by
  by_cases hc : c = a <;> simp [replaceChar, hc]

theorem escapeHtml_eq_escSpec : ∀ s : List Char, escapeHtml s = escSpec s := by
  intro s
  induction s with
  | nil => rfl
  | cons c cs ih =>
    show escapeHtml (c :: cs) = escChar c ++ escSpec cs
    rw [← ih]
    unfold escapeHtml
    rw [replaceChar_cons, replaceChar_append, replaceChar_append, replaceChar_append]
    congr 1
    by_cases h1 : c = '&'
    · subst h1; decide
    · by_cases h2 : c = '<'
      · subst h2; decide
      · by_cases h3 : c = '>'
        · subst h3; decide
        · by_cases h4 : c = chDQuote
          · subst h4; decide
          · simp [replaceChar, escChar, h1, h2, h3, h4]

theorem takeWhile_ne_nl_append {A Z : List Char} (hA : ∀ x ∈ A, x ≠ '\n') :
    (A ++ '\n' :: Z).takeWhile (fun y => !(y == '\n')) = A := by
  induction A with
  | nil => simp [takeWhile_cons_eq]
  | cons a A' ih =>
    have ha : a ≠ '\n' := hA a (List.mem_cons_self a A')
    have hb : (!(a == '\n')) = true := by simp [ha]
    simp only [List.cons_append, takeWhile_cons_eq, hb, if_true, List.cons.injEq, true_and]
    exact ih (fun x hx => hA x (List.mem_cons_of_mem a hx))

/-! ### The claims -/

/-- Claim C1, counterexample: one driver iteration on the one-block
document does not replace the matched span by the bare placeholder with
nothing else inserted: two newline characters are inserted around the
placeholder, so the result differs from prefix ++ placeholder ++ suffix. -/
theorem c1_splice_cex :
    search c1text = some (0, c1core) ∧
    coreLen c1core = 9 ∧
    spliceAt c1text ph2 0 9 = ("\nPH\n").data ∧
    spliceAt c1text ph2 0 9 ≠ c1text.take 0 ++ (ph2 ++ c1text.drop 9) := by
  refine ⟨by decide, by decide, by decide, by decide⟩

/-- Claim C1 (amended): whenever the scanner finds a match, one driver
iteration replaces exactly the matched span (both fences, options
segment and body, reconstructed by `blockText`) with the single
placeholder, inserting one newline immediately before and one
immediately after it, and the text strictly before the match start and
strictly after the match end is preserved byte-for-byte. -/
theorem c1_splice_frame (t p : List Char) (n : Nat) (r : Core)
    (h : search t = some (n, r)) :
    (t.take n).length = n ∧
    t = t.take n ++ (blockText r ++ r.post) ∧
    t.drop (n + coreLen r) = r.post ∧
    spliceAt t p n (n + coreLen r) = t.take n ++ '\n' :: (p ++ '\n' :: r.post) := by
  obtain ⟨hdropn, hdrop2, hteq, htklen, _⟩ := search_decomp h
  refine ⟨htklen, hteq, hdrop2, ?_⟩
  simp only [spliceAt, hdrop2]

/-- Claim C1 witness: the amended frame property evaluated on the
concrete one-block document. -/
theorem c1_splice_frame_wit :
    (c1text.take 0).length = 0 ∧
    c1text = c1text.take 0 ++ (blockText c1core ++ c1core.post) ∧
    c1text.drop (0 + coreLen c1core) = c1core.post ∧
    spliceAt c1text ph2 0 (0 + coreLen c1core)
      = c1text.take 0 ++ '\n' :: (ph2 ++ '\n' :: c1core.post) :=
  c1_splice_frame c1text ph2 0 c1core (by decide)

/-- Claim C2: every match closes an opening run of N >= 3 identical
delimiters with a closing line that is exactly the same run of N of the
same character plus optional trailing spaces (the whole matched span is
`blockText`, whose closing segment is the back-referenced run followed
only by spaces and then end-of-line); concretely, a four-backtick
opening is not closed by a three-backtick line, and a three-backtick
run inside a four-backtick block stays literal body content. -/
theorem c2_close_discipline :
    (∀ (u : List Char) (r : Core), matchCore u = some r →
      3 ≤ r.fenceLen ∧ isFenceChar r.fenceChar = true ∧
      (r.code = [] ∨ ∃ cpre, r.code = cpre ++ ['\n']) ∧
      atEolSfx r.post = true ∧
      u = blockText r ++ r.post) ∧
    search c2docA = none ∧
    (search c2docB).map (fun x => x.2.code) = some (("```\nx\n").data) := by
  refine ⟨?_, by decide, by decide⟩
  intro u r h
  obtain ⟨hfc, hL3, _, hcs, heol, hdec⟩ := matchCore_decomp h
  exact ⟨hL3, hfc, hcs, heol, hdec⟩

/-- Claim C2 witness: the closing-discipline decomposition evaluated on
the concrete one-block document. -/
theorem c2_close_discipline_wit :
    3 ≤ c1core.fenceLen ∧ isFenceChar c1core.fenceChar = true ∧
    (c1core.code = [] ∨ ∃ cpre, c1core.code = cpre ++ ['\n']) ∧
    atEolSfx c1core.post = true ∧
    c1text = blockText c1core ++ c1core.post :=
  c2_close_discipline.1 c1text c1core (by decide)

/-- Claim C3, counterexample: the option parser applied to
foo="unterminated (no closing quote) does not return the empty mapping:
the dangling value text is re-scanned as a bare label and emitted as the
language, giving the singleton mapping lang = unterminated. -/
theorem c3_unterminated_cex :
    parseOptions (("foo=\"unterminated").data)
      = [(langKey, OptVal.str ("unterminated"))] ∧
    parseOptions (("foo=\"unterminated").data) ≠ [] := by
  refine ⟨by decide, by decide⟩

/-- Claim C3 (amended): on a malformed option the parser does not raise
(the embedding is total) and the offending key itself is never emitted —
no foo entry appears — but parsing continues by scanning the remaining
text, including the dangling value, for label tokens, which are emitted
as bare language labels: foo="unterminated yields lang = unterminated,
and the stray-equals input foo=3 yields lang = 3. -/
theorem c3_malformed_amended :
    parseOptions (("foo=\"unterminated").data)
      = [(langKey, OptVal.str ("unterminated"))] ∧
    dictGet (parseOptions (("foo=\"unterminated").data)) ("foo") = none ∧
    parseOptions (("foo=3").data) = [(langKey, OptVal.str ("3"))] ∧
    dictGet (parseOptions (("foo=3").data)) ("foo") = none := by
  refine ⟨by decide, by decide, by decide, by decide⟩

/-- Claim C4, counterexample: for the matched block whose options
segment is hl_lines="1 3" the parsed Option Set has no lang entry, yet
the no-highlighter rendering carries an empty class attribute rather
than no class attribute at all. -/
theorem c4_class_attr_cex :
    search c4doc = some (0, c4core) ∧
    c4core.opts ≠ [] ∧
    dictGet (parseOptions c4core.opts) langKey = none ∧
    fencedRender false hl0 c4core = c4out ∧
    fencedRender false hl0 c4core ≠ codeWrap [] (escapeHtml c4core.code) := by
  refine ⟨by decide, by decide, by decide, by decide, by decide⟩

/-- Claim C4 (amended): in the no-highlighter path the code tag carries
exactly class="<lang>" when the Option Set has a lang entry; it carries
no class attribute at all only when the options capture is empty; when
the options capture is non-empty but parses with no lang entry it
carries an empty class attribute class="". -/
theorem c4_class_attr_amended (hl : List Char → List (String × OptVal) → List Char)
    (r : Core) :
    (r.opts = [] → fencedRender false hl r = codeWrap [] (escapeHtml r.code)) ∧
    (∀ s, r.opts ≠ [] → dictGet (parseOptions r.opts) langKey = some (OptVal.str s) →
      fencedRender false hl r = codeWrap (langAttrOf s) (escapeHtml r.code)) ∧
    (r.opts ≠ [] → dictGet (parseOptions r.opts) langKey = none →
      fencedRender false hl r = codeWrap (langAttrOf ("")) (escapeHtml r.code)) := by
  refine ⟨?_, ?_, ?_⟩
  · intro h0
    simp [fencedRender, h0]
  · intro s hne hs
    have hE : r.opts.isEmpty = false := by
      cases hop : r.opts
      · exact absurd hop hne
      · simp
    simp [fencedRender, hE, langTagFor, hs, ovFormat, langAttrOf]
  · intro hne hnone
    have hE : r.opts.isEmpty = false := by
      cases hop : r.opts
      · exact absurd hop hne
      · simp
    simp [fencedRender, hE, langTagFor, hnone, ovFormat, langAttrOf]

/-- Claim C4 witness: the empty-class case of the amended statement
evaluated on the concrete hl_lines-only block. -/
theorem c4_class_attr_amended_wit :
    fencedRender false hl0 c4core = codeWrap (langAttrOf ("")) (escapeHtml c4core.code) :=
  (c4_class_attr_amended hl0 c4core).2.2 (by decide) (by decide)

/-- Claim C5: the four literal-input equalities of the option parser:
.python, brace-and-dot wrapped .python with hl_lines, highlight with
linenums="True" (parsed as the boolean true), and the bare label
python. -/
theorem c5_literal_option_cases :
    parseOptions ((".python").data) = [(langKey, OptVal.str ("python"))] ∧
    parseOptions (("\x7b.python hl_lines=\"1 3\"\x7d").data)
      = [(langKey, OptVal.str ("python")), (("hl_lines" : String), OptVal.str ("1 3"))] ∧
    parseOptions (("highlight linenums=\"True\"").data)
      = [(langKey, OptVal.str ("highlight")), (("linenums" : String), OptVal.bool true)] ∧
    parseOptions (("python").data) = [(langKey, OptVal.str ("python"))] := by
  refine ⟨by decide, by decide, by decide, by decide⟩

/-- Claim C6: the no-highlighter renderer escapes exactly the four
characters ampersand, less-than, greater-than and double quote, as the
character-wise map `escChar` (so no already-produced entity is escaped
again), and the concrete script body renders as stated. -/
theorem c6_escape_exactly_four :
    (∀ s : List Char, escapeHtml s = escSpec s) ∧
    escapeHtml (("<script>&\"</script>").data)
      = ("&lt;script&gt;&amp;&quot;&lt;/script&gt;").data :=
  ⟨escapeHtml_eq_escSpec, by decide⟩

/-- Claim C7, counterexample: the empty line sequence joins to the empty
text, which has no scanner match, yet the driver returns the one-line
sequence [""] rather than a sequence equal to its input. -/
theorem c7_empty_lines_cex :
    search (joinNl ([] : List (List Char))) = none ∧
    run false hl0 phPH 1 ([] : List (List Char)) = some ([[]], []) ∧
    ([[]] : List (List Char)) ≠ [] := by
  refine ⟨by decide, by decide, by decide⟩

/-- Claim C7 (amended): for every non-empty input line sequence with no
embedded newlines whose newline-join has no scanner match, the driver
performs zero replacements, stores nothing, and returns its input
unchanged (the empty sequence instead comes back as [""]). -/
theorem c7_no_match_id (lines : List (List Char)) (h0 : lines ≠ [])
    (h1 : ∀ l ∈ lines, '\n' ∉ l) (h2 : search (joinNl lines) = none)
    (conf : Bool) (hl : List Char → List (String × OptVal) → List Char)
    (ph : Nat → List Char) (fuel : Nat) (h3 : 0 < fuel) :
    run conf hl ph fuel lines = some (lines, []) := by
  obtain ⟨f, rfl⟩ : ∃ f, fuel = f + 1 := ⟨fuel - 1, by omega⟩
  simp only [run, runLoop, h2]
  simp [splitNl_joinNl h0 h1]

/-- Claim C7 witness: the no-match identity evaluated on two plain
lines. -/
theorem c7_no_match_id_wit : run false hl0 phPH 1 c7lines = some (c7lines, []) :=
  c7_no_match_id c7lines (by decide) (by decide) (by decide) false hl0 phPH 1 (by decide)

/-- Claim C8: when every placeholder the content store returns has no
fence-start line (no run of three or more backticks or tildes at a start
of line), the scan-and-splice loop needs only finitely many iterations:
some finite fuel makes `run` return. -/
theorem c8_run_terminates (ph : Nat → List Char)
    (hph : ∀ k, ∀ l ∈ splitNl (ph k), isFenceLine l = false)
    (conf : Bool) (hl : List Char → List (String × OptVal) → List Char)
    (lines : List (List Char)) :
    ∃ fuel, (run conf hl ph fuel lines).isSome = true := by
  refine ⟨muF (joinNl lines) + 1, ?_⟩
  have h := runLoop_isSome conf hl ph hph (muF (joinNl lines) + 1) (joinNl lines) [] (by omega)
  cases hrl : runLoop conf hl ph (muF (joinNl lines) + 1) (joinNl lines) [] with
  | none => rw [hrl] at h; simp at h
  | some v => simp [run, hrl]

/-- Claim C8 witness: termination on a concrete one-block document with
the constant placeholder PH. -/
theorem c8_run_terminates_wit :
    ∃ fuel, (run false hl0 phPH fuel c8lines).isSome = true :=
  c8_run_terminates phPH
    (fun _ => show ∀ l ∈ splitNl (("PH").data), isFenceLine l = false by decide)
    false hl0 c8lines

/-- Claim C9: if the text between the (maximal) opening delimiter run
and the end of that line contains a character outside the options class,
the scanner matches no block starting at that line; concretely, a
document whose opening line contains a comma passes through the driver
unchanged. -/
theorem c9_bad_option_char :
    (∀ (u rest : List Char) (c : Char) (L : Nat),
      isFenceChar c = true → 3 ≤ L → u = List.replicate L c ++ rest →
      rest.head? ≠ some c →
      (∃ x ∈ rest.takeWhile (fun y => !(y == '\n')), optClassChar x = false) →
      matchCore u = none) ∧
    run false hl0 phPH 1 c9doc = some (c9doc, []) := by
  refine ⟨?_, by decide⟩
  intro u rest c L hc hL hu hhead hbad
  cases hmc : matchCore u with
  | none => rfl
  | some r =>
    exfalso
    obtain ⟨hfc, hL3, hoptc, _, _, hdec⟩ := matchCore_decomp hmc
    have hrun := matchCore_fenceLen_run hmc
    have hsh : blockText r ++ r.post = List.replicate r.fenceLen r.fenceChar
        ++ ((List.replicate r.sp1 ' ' ++ r.opts) ++ ('\n' :: ((r.code
          ++ (List.replicate r.fenceLen r.fenceChar ++ List.replicate r.sp2 ' '))
            ++ r.post))) := by
      simp [blockText, List.append_assoc, List.cons_append]
    have hcc : r.fenceChar = c := by
      have h1 : u.head? = some c := by
        rw [hu]
        exact head?_replicate_append (by omega)
      have h2 : u.head? = some r.fenceChar := by
        rw [hdec, hsh]
        exact head?_replicate_append (by omega)
      exact Option.some.inj (h2.symm.trans h1)
    have hlen1 : (u.takeWhile (fun x => x == c)).length = L := by
      rw [hu]
      exact takeWhile_length_replicate_append hhead L
    have hLeq : r.fenceLen = L := by
      rw [hcc] at hrun
      omega
    have hd1 : u.drop L = rest := by
      rw [hu]
      exact drop_replicate_append
    have hd2 : u.drop L = (List.replicate r.sp1 ' ' ++ r.opts) ++ ('\n' :: ((r.code
        ++ (List.replicate r.fenceLen r.fenceChar ++ List.replicate r.sp2 ' '))
          ++ r.post)) := by
      rw [hdec, hsh, hcc, hLeq]
      exact drop_replicate_append
    have hrest : rest = (List.replicate r.sp1 ' ' ++ r.opts) ++ ('\n' :: ((r.code
        ++ (List.replicate r.fenceLen r.fenceChar ++ List.replicate r.sp2 ' '))
          ++ r.post)) := hd1.symm.trans hd2
    have hAcls : ∀ y ∈ List.replicate r.sp1 ' ' ++ r.opts, optClassChar y = true := by
      intro y hy
      rcases List.mem_append.mp hy with hy1 | hy2
      · rw [List.eq_of_mem_replicate hy1]
        decide
      · exact hoptc y hy2
    have hAnl : ∀ y ∈ List.replicate r.sp1 ' ' ++ r.opts, y ≠ '\n' := by
      intro y hy heq
      have := hAcls y hy
      rw [heq] at this
      exact absurd this (by decide)
    obtain ⟨x, hxmem, hxbad⟩ := hbad
    rw [hrest, takeWhile_ne_nl_append hAnl] at hxmem
    rw [hAcls x hxmem] at hxbad
    exact Bool.noConfusion hxbad

/-- Claim C9 witness: the scanner refuses the concrete opening line
with a comma in its options text. -/
theorem c9_bad_option_char_wit : matchCore c9u = none :=
  c9_bad_option_char.1 c9u c9rest chBacktick 3 (by decide) (by decide) (by decide)
    (by decide) (by decide)

/-- Claim C10: an opening fence immediately followed by its matching
closing fence is matched with an empty code capture and empty options,
renders as the bare pre-code wrapper in the no-highlighter path, and the
driver replaces the block with a placeholder instead of leaving the
lines as ordinary text. -/
theorem c10_empty_block :
    search c10doc = some (0, c10core) ∧
    c10core.code = [] ∧ c10core.opts = [] ∧
    fencedRender false hl0 c10core = c10wrap ∧
    run false hl0 phPH 2 [("```").data, ("```").data]
      = some ([[], ("PH").data, []], [c10wrap]) := by
  refine ⟨by decide, by decide, by decide, by decide, by decide⟩

end FencedCode

